import Mathlib

/-!
# Verification of the contact-enrichment pipeline

Shallow embedding of the phone/email enrichment pipeline of this repository
(`tools.py`, `crawler.py`, `combined.py`) and proofs about it.

Python strings are modelled as Lean `String`s; the Python string primitives
used by the code (`str.strip`, `str.lower`, `str.isdigit` filtering,
`str.replace`, `str.startswith`, `str.endswith`, slicing) are modelled as
functions over the underlying character list.  The models are restricted to
the ASCII behaviour of those primitives (Python's `\d`, `\w`, `\s`, and
`str.lower` also cover non-ASCII code points; no claim depends on such
inputs).
-/

namespace Enrich

/-- Model of Python `str.lower` (ASCII letters; `str.lower` on other
characters is identity for the inputs this development needs). -/
def pyLower (s : String) : String := ⟨s.data.map Char.toLower⟩

/-- Model of Python `re.sub(r"\D", "", s)` / `''.join(filter(str.isdigit, s))`:
keep only (ASCII) digits. -/
def pyDigits (s : String) : String := ⟨s.data.filter Char.isDigit⟩

/-- Python's whitespace predicate (`str.isspace`, also what `str.strip()`
strips and what `\s` matches), complete for every code point below `0x100`:
`\t \n \x0b \x0c \r`, the separators `\x1c`–`\x1f`, space, `\x85` (NEL) and
`\xa0` (NBSP). -/
def pyIsSpace (c : Char) : Bool :=
  c == ' ' || c == '\t' || c == '\n' || c == '\x0b' || c == '\x0c' || c == '\r' ||
  c == '\x1c' || c == '\x1d' || c == '\x1e' || c == '\x1f' || c == '\x85' || c == '\xa0'

/-- Model of Python `str.strip()`: drop leading and trailing whitespace. -/
def pyStrip (s : String) : String :=
  ⟨((s.data.dropWhile pyIsSpace).reverse.dropWhile pyIsSpace).reverse⟩

/-- Model of Python `str.startswith(p)`. -/
def pyStartsWith (s p : String) : Bool := p.data.isPrefixOf s.data

/-- Model of Python `str.endswith(p)`. -/
def pyEndsWith (s p : String) : Bool := p.data.isSuffixOf s.data

/-- Model of Python `s.replace("-", "")`: remove every dash. -/
def pyRemoveDashes (s : String) : String := ⟨s.data.filter (fun c => !(c == '-'))⟩

/-- Model of Python `int(s)` applied to a string, as used on digit-only
strings: succeeds exactly on nonempty all-digit strings (`int` would raise
otherwise, which the caller catches). -/
def pyInt (s : String) : Option Nat :=
  if s ≠ "" ∧ s.data.all Char.isDigit then
    some (s.data.foldl (fun n c => 10 * n + (c.toNat - 48)) 0)
  else none

/-- `crawler.digits_only`: `re.sub(r"\D", "", s or "")`. -/
def digits_only (s : String) : String := pyDigits s

/-- `crawler.clean_csv_phone_for_save`: remove dashes from the CSV phone and
strip surrounding whitespace (the `None`/NaN case yields `""`, modelled by
passing `""`). -/
def clean_csv_phone_for_save (s : String) : String := pyStrip (pyRemoveDashes s)

/-- `crawler.format_us_phone_e164`: normalize a US phone-like string to
E.164 `+1XXXXXXXXXX`, or `none` if that is impossible. -/
def format_us_phone_e164 (value : String) : Option String :=
  let d := digits_only value
  if d = "" then none
  else if d.length = 10 then some ("+1" ++ d)
  else if d.length = 11 ∧ pyStartsWith d "1" then some ("+" ++ d)
  else if pyStartsWith value "+1" ∧ d.length = 11 then some value
  else none

/-- Loop of `crawler.dedupe_preserve_order`; the Python `seen` set is
modelled as the list of keys seen so far. -/
def dedupeGo (seen : List String) : List String → List String
  | [] => []
  | v :: vs =>
    let key := digits_only v
    if key = "" then dedupeGo seen vs
    else if key ∈ seen then dedupeGo seen vs
    else v :: dedupeGo (key :: seen) vs

/-- `crawler.dedupe_preserve_order`: de-duplicate by digit-only key,
preserving first-occurrence order. -/
def dedupe_preserve_order (values : List String) : List String := dedupeGo [] values

/-- A canonical phone: `"+1"` followed by exactly 10 digits. -/
def isCanonical (s : String) : Prop :=
  ∃ ds : List Char, s.data = '+' :: '1' :: ds ∧ ds.length = 10 ∧ ds.all Char.isDigit

/-! ## Regular-expression scanning (`tools.extract_contacts`)

The fixed regular expressions of `tools.py` are embedded as token lists over
a tiny pattern language (literal, character class, optional class, starred
class, negative word-char lookahead) with Python's leftmost / greedy /
backtracking matching semantics, and `re.findall`'s non-overlapping
left-to-right scan. -/

/-- One token of the pattern language needed for the fixed regexes of
`tools.py`. -/
inductive Tok where
  | lit (c : Char)
  | cls (p : Char → Bool)
  | opt (p : Char → Bool)
  | star (p : Char → Bool)
  | notWordAhead

/-- Python `\w` (ASCII part): letters, digits, underscore. -/
def isWordChar (c : Char) : Bool := c.isAlpha || c.isDigit || c == '_'

/-- Match a token list against a prefix of the input, returning the matched
characters.  Alternatives are tried greedily (consume first), with
backtracking, exactly as Python's `re` engine does for these constructs.
`fuel` only bounds the recursion so that the function is structurally
recursive (and so evaluates inside the kernel); every recursive call
strictly decreases `toks.length + cs.length`, so any fuel above that sum
never runs out. -/
def matchToksFuel : Nat → List Tok → List Char → Option (List Char)
  | 0, _, _ => none
  | fuel + 1, toks, cs =>
    match toks, cs with
    | [], _ => some []
    | .lit c :: ts, x :: xs =>
      if x = c then (matchToksFuel fuel ts xs).map (x :: ·) else none
    | .lit _ :: _, [] => none
    | .cls p :: ts, x :: xs =>
      if p x then (matchToksFuel fuel ts xs).map (x :: ·) else none
    | .cls _ :: _, [] => none
    | .opt p :: ts, x :: xs =>
      if p x then
        match (matchToksFuel fuel (ts) xs).map (x :: ·) with
        | some r => some r
        | none => matchToksFuel fuel ts (x :: xs)
      else matchToksFuel fuel ts (x :: xs)
    | .opt _ :: ts, [] => matchToksFuel fuel ts []
    | .star p :: ts, x :: xs =>
      if p x then
        match (matchToksFuel fuel (.star p :: ts) xs).map (x :: ·) with
        | some r => some r
        | none => matchToksFuel fuel ts (x :: xs)
      else matchToksFuel fuel ts (x :: xs)
    | .star _ :: ts, [] => matchToksFuel fuel ts []
    | .notWordAhead :: ts, [] => matchToksFuel fuel ts []
    | .notWordAhead :: ts, x :: xs =>
      if isWordChar x then none else matchToksFuel fuel ts (x :: xs)

/-- Match the pattern at the start of `cs`, with always-sufficient fuel. -/
def matchToks (toks : List Tok) (cs : List Char) : Option (List Char) :=
  matchToksFuel (toks.length + cs.length + 1) toks cs

/-- `re.findall`: scan left to right, taking non-overlapping matches.
`needBoundary` models a leading `\b` (the email pattern); `prev` is the
character just before the current position.  `fuel` again only bounds the
recursion (each step consumes at least one character, so any fuel above the
input length never runs out). -/
def findAllGoFuel (toks : List Tok) (needBoundary : Bool) :
    Nat → Option Char → List Char → List String
  | 0, _, _ => []
  | _ + 1, _, [] => []
  | fuel + 1, prev, c :: rest =>
    let prevWord := match prev with | some q => isWordChar q | none => false
    let boundaryOk := !needBoundary || (isWordChar c != prevWord)
    match (if boundaryOk then matchToks toks (c :: rest) else none) with
    | some (a :: m) =>
      (⟨a :: m⟩ : String) ::
        findAllGoFuel toks needBoundary fuel ((a :: m).getLast? <|> some c)
          ((c :: rest).drop (a :: m).length)
    | some [] => findAllGoFuel toks needBoundary fuel (some c) rest
    | none => findAllGoFuel toks needBoundary fuel (some c) rest

/-- `re.findall(pattern, text)` for a pattern given as tokens. -/
def findAll (toks : List Tok) (needBoundary : Bool) (text : String) : List String :=
  findAllGoFuel toks needBoundary (text.data.length + 1) none text.data

/-- Python `[\s\-\.]`. -/
def sepChar (c : Char) : Bool := pyIsSpace c || c == '-' || c == '.'

/-- Phone pattern (a) of `tools.extract_contacts`:
`\+1[\s\-\.]?\(?\d{3}\)?[\s\-\.]?\d{3}[\s\-\.]?\d{4}`. -/
def p1Toks : List Tok :=
  [.lit '+', .lit '1', .opt sepChar, .opt (fun c => c == '('),
   .cls Char.isDigit, .cls Char.isDigit, .cls Char.isDigit,
   .opt (fun c => c == ')'), .opt sepChar,
   .cls Char.isDigit, .cls Char.isDigit, .cls Char.isDigit,
   .opt sepChar,
   .cls Char.isDigit, .cls Char.isDigit, .cls Char.isDigit, .cls Char.isDigit]

/-- Phone pattern (b) of `tools.extract_contacts`:
`\(?\d{3}\)?[\s\-\.]+\d{3}[\s\-\.]+\d{4}`. -/
def p2Toks : List Tok :=
  [.opt (fun c => c == '('),
   .cls Char.isDigit, .cls Char.isDigit, .cls Char.isDigit,
   .opt (fun c => c == ')'), .cls sepChar, .star sepChar,
   .cls Char.isDigit, .cls Char.isDigit, .cls Char.isDigit,
   .cls sepChar, .star sepChar,
   .cls Char.isDigit, .cls Char.isDigit, .cls Char.isDigit, .cls Char.isDigit]

/-- Email local-part class `[a-zA-Z0-9._%+-]`. -/
def emailLocalChar (c : Char) : Bool :=
  c.isAlpha || c.isDigit || c == '.' || c == '_' || c == '%' || c == '+' || c == '-'

/-- Email domain class `[a-zA-Z0-9.-]`. -/
def emailDomainChar (c : Char) : Bool := c.isAlpha || c.isDigit || c == '.' || c == '-'

/-- Email pattern of `tools.extract_contacts`:
`\b[a-zA-Z0-9._%+-]+@[a-zA-Z0-9.-]+\.[a-zA-Z]{2,}\b` (the `re.IGNORECASE`
flag is redundant, the classes already contain both cases). -/
def emailToks : List Tok :=
  [.cls emailLocalChar, .star emailLocalChar, .lit '@',
   .cls emailDomainChar, .star emailDomainChar, .lit '.',
   .cls Char.isAlpha, .cls Char.isAlpha, .star Char.isAlpha, .notWordAhead]

/-- All matches of the two phone patterns, in the order the code iterates
them (pattern (a) first, then pattern (b)). -/
def phoneMatches (text : String) : List String :=
  findAll p1Toks false text ++ findAll p2Toks false text

/-- All matches of the email pattern. -/
def emailMatches (text : String) : List String := findAll emailToks true text

/-- Per-match processing of `tools.extract_contacts`: reduce the match to
digits, prefix `+1` (10 digits) or `+` (11 digits starting `1`), and keep
the result only if it is `+1` followed by digits, 12 characters long. -/
def processPhoneMatch (m : String) : Option String :=
  let num := pyDigits m
  let num :=
    if num.length = 10 then "+1" ++ num
    else if num.length = 11 ∧ pyStartsWith num "1" then "+" ++ num
    else num
  if num.length = 12 ∧ pyStartsWith num "+1" then some num else none

/-- Result of `tools.extract_contacts`. -/
structure Contacts where
  phones : List String
  emails : List String
deriving DecidableEq

/-- Python string comparison `a <= b` on character lists: lexicographic by
code point. -/
def lexLe : List Char → List Char → Bool
  | [], _ => true
  | _ :: _, [] => false
  | a :: as, b :: bs =>
    if a.toNat < b.toNat then true
    else if b.toNat < a.toNat then false
    else lexLe as bs

/-- Python string comparison `a <= b` (the order `sorted` uses). -/
def pyLe (a b : String) : Prop := lexLe a.data b.data = true

instance : DecidableRel pyLe := fun a b => instDecidableEqBool (lexLe a.data b.data) true

/-- Python's `sorted` on a `set` of strings: the sorted list of the
distinct elements. -/
def pySortedSet (l : List String) : List String :=
  (l.dedup).insertionSort pyLe

/-- `tools.extract_contacts`: scan the text with the email pattern and both
phone patterns, post-process each phone match, and return the sorted sets. -/
def extract_contacts (text : String) : Contacts :=
  { phones := pySortedSet ((phoneMatches text).filterMap processPhoneMatch)
    emails := pySortedSet (emailMatches text) }

/-- Keep-first de-duplication (plain string equality). -/
def keepFirstGo (seen : List String) : List String → List String
  | [] => []
  | x :: xs =>
    if x ∈ seen then keepFirstGo seen xs
    else x :: keepFirstGo (x :: seen) xs

/-- Modelled from the spec: the "first-seen-in-text order" of extracted
phones that the claim describes — the processed phone matches in the order
the scan yields them (pattern (a)'s matches, then pattern (b)'s),
de-duplicated keeping the first occurrence.  `tools.extract_contacts` does
NOT produce this order (it sorts); this definition only states what the
claim asserts. -/
def phonesFirstSeen (text : String) : List String :=
  keepFirstGo [] ((phoneMatches text).filterMap processPhoneMatch)

/-! ## Phone validator (`crawler.verify_phone`) -/

/-- Outcome of the one HTTP call `verify_phone` makes, as far as the code
observes it: a transport error (`requests.RequestException`, including
`raise_for_status`), a malformed/unparseable response (`response.json()` or
field access raising, caught by the generic handler), or a parsed JSON body,
of which the code reads the `valid`, `type` and `isDisposable` fields
(truthiness of the first and last modelled as `Bool`, `type` passed through
`str(...)`). -/
inductive ApiOutcome where
  | transportError
  | malformed
  | success (valid : Bool) (lineType : String) (disposable : Bool)

/-- The one exception `verify_phone` can raise: the `ValueError` thrown when
the API key is not configured. -/
inductive VErr where
  | valueError
deriving DecidableEq

/-- `crawler.verify_phone`.  `apiKey` models `os.getenv("API_KEY")`
(`none` = unset; `some ""` is also falsy in Python); `respond` models the
external service: what the call on a given digit string produces. -/
def verify_phone (apiKey : Option String) (respond : String → ApiOutcome)
    (number : String) : Except VErr Bool :=
  match apiKey with
  | none => .error .valueError
  | some k =>
    if k = "" then .error .valueError
    else
      let numberStr := pyDigits number
      if numberStr = "" then .ok false
      else
        match respond numberStr with
        | .transportError => .ok false
        | .malformed => .ok false
        | .success valid lineType disposable =>
          if !valid then .ok false
          else if disposable then .ok false
          else if pyLower lineType = "mobile" ∨ pyLower lineType = "fixed_line_or_mobile" then
            .ok true
          else .ok false

/-- Modelled from the spec: the acceptance policy — accept only if the
service reports the number valid AND not disposable AND the line type is
mobile-capable; transport errors and malformed responses reject. -/
def specAcceptPolicy : ApiOutcome → Bool
  | .transportError => false
  | .malformed => false
  | .success valid lineType disposable =>
    valid && !disposable &&
      (pyLower lineType == "mobile" || pyLower lineType == "fixed_line_or_mobile")

/-! ## URL normalization (`crawler.normalize_url`) -/

/-- The `ValueError` CPython's `urlsplit` raises on a netloc containing an
unbalanced `[` or `]`. -/
inductive UrlErr where
  | invalidIPv6
deriving DecidableEq

/-- `urlsplit` first removes the unsafe characters tab, CR and LF from the
whole URL, wherever they occur. -/
def urlSanitize (s : String) : List Char :=
  s.data.filter (fun c => !(c == '\t' || c == '\r' || c == '\n'))

/-- The netloc/path split `urlparse` performs on a string that (after the
tab/CR/LF removal) starts with `http://` or `https://`: netloc runs to the
first `/`, `?` or `#`; the path runs from there to the first `?` or `#`.
(The `params` component — a `;` suffix of the last path segment — is not
modelled; no input in this development contains `;`.) -/
def urlNetlocPath (s : String) : List Char × List Char :=
  let data := urlSanitize s
  let restData :=
    if ("https://" : String).data.isPrefixOf data then data.drop 8 else data.drop 7
  let netlocData := restData.takeWhile (fun c => !(c == '/' || c == '?' || c == '#'))
  let afterData := restData.drop netlocData.length
  let pathData := afterData.takeWhile (fun c => !(c == '?' || c == '#'))
  (netlocData, pathData)

/-- `urlsplit`'s bracket check: a netloc containing `[` without `]` (or
`]` without `[`) raises `ValueError("Invalid IPv6 URL")`.  (From Python
3.11 a netloc containing both brackets is additionally validated as an
IPv6/IPvFuture address; that version-dependent path is not modelled, and no
theorem below asserts anything about a netloc containing brackets.) -/
def invalidIPv6Netloc (netloc : List Char) : Prop :=
  ('[' ∈ netloc ∧ ']' ∉ netloc) ∨ (']' ∈ netloc ∧ '[' ∉ netloc)

instance (netloc : List Char) : Decidable (invalidIPv6Netloc netloc) :=
  inferInstanceAs (Decidable
    (('[' ∈ netloc ∧ ']' ∉ netloc) ∨ (']' ∈ netloc ∧ '[' ∉ netloc)))

/-- `urlparse` as `crawler.normalize_url` observes it, with the empty-netloc
fix-up the crawler applies right after: either the bracket `ValueError` or
the (netloc, path) pair. -/
def urlHostPath (s : String) : Except UrlErr (List Char × List Char) :=
  let np := urlNetlocPath s
  if invalidIPv6Netloc np.1 then .error .invalidIPv6
  else
    -- `crawler.normalize_url`: "if not netloc and path: netloc, path = path, ''"
    if np.1 = [] ∧ np.2 ≠ [] then .ok (np.2, []) else .ok np

/-- `crawler.normalize_url`'s first step: ensure a scheme for parsing. -/
def ensureScheme (s : String) : String :=
  if pyStartsWith s "http://" || pyStartsWith s "https://" then s
  else "https://" ++ s

/-- `crawler.normalize_url`: normalize a website string to a fetchable
https URL with optional `www.`; `.ok none` if no valid host can be derived.
The `ValueError` `urlparse` can raise propagates — the crawler has no
handler for it. -/
def normalize_url (raw : String) : Except UrlErr (Option String) :=
  let s := pyStrip raw
  if s = "" ∨ pyLower s = "nan" ∨ pyLower s = "none" ∨ pyLower s = "null" then .ok none
  else
    match urlHostPath (ensureScheme s) with
    | .error e => .error e
    | .ok hp =>
      if hp.1 = [] then .ok none
      else
        let netloc : String := ⟨hp.1⟩
        let netloc :=
          if ¬ pyStartsWith (pyLower netloc) "www." ∧ hp.1.count '.' = 1 then
            "www." ++ netloc
          else netloc
        .ok (some ("https://" ++ netloc ++ (if hp.2 = [] then "/" else (⟨hp.2⟩ : String))))

/-- The URL the row loop fetches, as a total function.  On a website string
where `urlparse` raises, the real enrichment pass aborts (the `ValueError`
propagates out of `enrich_csv` like the missing-key one and is caught by the
per-city handler); the row-level model stays total and skips the fetch
there.  The row-level theorems quantify over `fetch` and treat the
resulting contacts opaquely, so they do not depend on this path. -/
def rowNormUrl (w : String) : Option String :=
  match normalize_url w with
  | .ok o => o
  | .error _ => none

/-! ## Record enrichment (`crawler.enrich_csv` inner loop) -/

/-- The filter/verify/normalize loop of `crawler.enrich_csv` over the
deduplicated candidates: skip candidates with no digits, convert the digit
string with `int(...)`, call `verify_phone` (whose `ValueError` propagates),
and keep the E.164 normalization of accepted candidates, in order. -/
def processCandidates (verifyP : String → Except VErr Bool) :
    List String → Except VErr (List String)
  | [] => .ok []
  | phone :: rest =>
    let d := digits_only phone
    if d = "" then processCandidates verifyP rest
    else
      match pyInt d with
      | none => processCandidates verifyP rest
      | some n =>
        match verifyP (toString n) with
        | .error e => .error e
        | .ok accepted =>
          match processCandidates verifyP rest with
          | .error e => .error e
          | .ok tail =>
            if accepted then
              match format_us_phone_e164 phone with
              | some normalized => .ok (normalized :: tail)
              | none => .ok tail
            else .ok tail

/-- Email loop of `crawler.enrich_csv`: validate each extracted address
(`validateEmail` models `email_validator.validate_email` returning
`info.email`, `none` on `EmailNotValidError`), lower-case the result, and
dedupe case-insensitively preserving first-seen order (`seen` models the
Python set). -/
def validEmailsGo (validateEmail : String → Option String) (seen : List String) :
    List String → List String
  | [] => []
  | em :: rest =>
    let emStr := pyStrip em
    if emStr = "" then validEmailsGo validateEmail seen rest
    else
      match validateEmail emStr with
      | none => validEmailsGo validateEmail seen rest
      | some info =>
        let normalized := pyLower info
        if normalized ∈ seen then validEmailsGo validateEmail seen rest
        else normalized :: validEmailsGo validateEmail (normalized :: seen) rest

/-- The `valid_emails` list `crawler.enrich_csv` builds for one row. -/
def validEmails (validateEmail : String → Option String) (ems : List String) :
    List String := validEmailsGo validateEmail [] ems

/-- One input row, as `crawler.enrich_csv` reads it (absent columns are
empty strings). -/
structure RowIn where
  phone_number : String
  website : String
deriving DecidableEq

/-- The derived fields `crawler.enrich_csv` writes for one row: `Phone`,
`Additional Phones` (kept as the ordered list that is comma-joined on
save), `Email` (ditto). -/
structure RowOut where
  phone : String
  addlPhones : List String
  emails : List String
deriving DecidableEq

/-- Candidate-list construction of `crawler.enrich_csv`: the cleaned CSV
phone (if nonempty) first, then the extracted phones in the extractor's
output order. -/
def buildCandidates (rawPhone : String) (extracted : List String) : List String :=
  let csvPhone := clean_csv_phone_for_save rawPhone
  (if csvPhone ≠ "" then [csvPhone] else []) ++ extracted

/-- The contacts a row contributes from its website: fetch only if the URL
normalizes (`fetch` models `crawler.fetch_page_text`, returning `""` on any
failure), extract only if the page text is nonempty. -/
def rowContacts (fetch : String → String) (row : RowIn) : Contacts :=
  let normUrl := if row.website ≠ "" then rowNormUrl row.website else none
  let html := match normUrl with | some u => fetch u | none => ""
  if html ≠ "" then extract_contacts html else ⟨[], []⟩

/-- One iteration of the `crawler.enrich_csv` row loop. -/
def enrichRow (fetch : String → String) (validateEmail : String → Option String)
    (verifyP : String → Except VErr Bool) (row : RowIn) : Except VErr RowOut :=
  let contacts := rowContacts fetch row
  let candidates := buildCandidates row.phone_number contacts.phones
  match processCandidates verifyP (dedupe_preserve_order candidates) with
  | .error e => .error e
  | .ok filtered =>
    .ok { phone := (filtered.head?).getD ""
          addlPhones := filtered.tail
          emails := validEmails validateEmail contacts.emails }

/-- `crawler.enrich_csv` over all rows: sequential; an uncaught exception
(the missing-key `ValueError`) aborts the whole enrichment with no output
file written. -/
def enrich_csv (fetch : String → String) (validateEmail : String → Option String)
    (apiKey : Option String) (respond : String → ApiOutcome) (rows : List RowIn) :
    Except VErr (List RowOut) :=
  rows.mapM (enrichRow fetch validateEmail (verify_phone apiKey respond))

/-! ## Final pass (`combined.process_city` post-enrichment cleanup) -/

/-- `combined.add_plus1`. -/
def add_plus1 (s : String) : String :=
  if s = "" ∨ pyLower s = "nan" then ""
  else
    let t := pyStrip s
    let t := if pyEndsWith t ".0" then ⟨t.data.dropLast.dropLast⟩ else t
    if ¬ pyStartsWith t "+" then
      let digits := pyDigits t
      if digits.length = 10 then "+1" ++ digits
      else if digits.length = 11 ∧ pyStartsWith digits "1" then "+" ++ digits
      else if digits ≠ "" then (if digits.length = 10 then "+1" ++ digits else t)
      else t
    else t

/-- `combined.clean_additional_phones` for one row, at the list level (the
stored `Additional Phones` cell is the comma-join of `addl`; splitting on
`,` and stripping recovers the entries, which never contain commas):
apply `add_plus1` to each entry and drop empties and the main phone. -/
def clean_additional_phones (mainPhone : String) (addl : List String) : List String :=
  ((addl.map (fun p => add_plus1 (pyStrip p))).filter
    (fun p => p ≠ "" ∧ p ≠ mainPhone))

/-- One record of the final output of `combined.process_city`. -/
structure FinalRow where
  phone : String
  addlPhones : List String
  email : String
  addlEmails : List String
deriving DecidableEq

/-- The post-enrichment cleanup `combined.process_city` applies to one
enriched row: `add_plus1` on `Phone`, `clean_additional_phones` on
`Additional Phones` (reading the already-updated `Phone`, stripped), and
`split_emails` on the comma-joined `Email` cell (first address vs rest, at
the list level). -/
def finalizeRow (out : RowOut) : FinalRow :=
  let phone1 := add_plus1 out.phone
  let mainPhone := pyStrip phone1
  { phone := phone1
    addlPhones := clean_additional_phones mainPhone out.addlPhones
    email := (out.emails.head?).getD ""
    addlEmails := out.emails.tail }

/-! ## Basic lemmas about the string primitives -/

theorem toLower_idem (c : Char) : c.toLower.toLower = c.toLower := by
  by_cases h : 65 ≤ c.toNat ∧ c.toNat ≤ 90
  · have hc : c = Char.ofNat c.toNat := (Char.ofNat_toNat c).symm
    obtain ⟨h1, h2⟩ := h
    set n := c.toNat with hn
    interval_cases n <;> (rw [hc]; decide)
  · have hfix : c.toLower = c := by
      unfold Char.toLower
      simp only [ge_iff_le]
      rw [if_neg h]
    rw [hfix, hfix]

theorem pyLower_idem (s : String) : pyLower (pyLower s) = pyLower s := by
  apply String.ext
  simp [pyLower, Function.comp, toLower_idem]

theorem digit_not_pySpace {c : Char} (h : c.isDigit = true) :
    pyIsSpace c = false := by
  rw [Bool.eq_false_iff]
  intro hcon
  simp only [pyIsSpace, Bool.or_eq_true, beq_iff_eq] at hcon
  revert h
  rcases hcon with
    ((((((((((rfl|rfl)|rfl)|rfl)|rfl)|rfl)|rfl)|rfl)|rfl)|rfl)|rfl)|rfl <;> decide

theorem pyStartsWith_iff {s p : String} : pyStartsWith s p = true ↔ p.data <+: s.data := by
  simp [pyStartsWith]

theorem pyDigits_data (s : String) : (pyDigits s).data = s.data.filter Char.isDigit := rfl

theorem string_length_data (s : String) : s.length = s.data.length := rfl

theorem pyDigits_length (s : String) :
    (pyDigits s).length = (s.data.filter Char.isDigit).length := rfl

/-! ## Canonical phones -/

theorem canonical_data {p : String} (h : isCanonical p) :
    ∃ ds : List Char, p.data = '+' :: '1' :: ds ∧ ds.length = 10 ∧ ds.all Char.isDigit := h

theorem filter_digit_plus_one (t : List Char) :
    List.filter Char.isDigit ('+' :: '1' :: t) = '1' :: List.filter Char.isDigit t := by
  simp [List.filter_cons, (show ('+' : Char).isDigit = false by decide),
    (show ('1' : Char).isDigit = true by decide)]

theorem canonical_pyDigits {p : String} {ds : List Char}
    (hdata : p.data = '+' :: '1' :: ds) (hdig : ds.all Char.isDigit = true) :
    (pyDigits p).data = '1' :: ds := by
  rw [pyDigits_data, hdata, filter_digit_plus_one, List.filter_eq_self.mpr]
  intro a ha
  exact List.all_eq_true.mp hdig a ha

theorem canonical_inj {p q : String} (hp : isCanonical p) (hq : isCanonical q)
    (h : pyDigits p = pyDigits q) : p = q := by
  obtain ⟨ds, hpd, _, hpdig⟩ := hp
  obtain ⟨es, hqd, _, hqdig⟩ := hq
  have h1 := canonical_pyDigits hpd hpdig
  have h2 := canonical_pyDigits hqd hqdig
  have : ('1' :: ds : List Char) = '1' :: es := by
    rw [← h1, ← h2, h]
  apply String.ext
  rw [hpd, hqd]
  simpa using this

theorem pyDigits_all_digits (s : String) :
    (pyDigits s).data.all Char.isDigit = true := by
  simp only [pyDigits, List.all_eq_true]
  intro a ha
  exact (List.mem_filter.mp ha).2

/-- A string starting with `+1` has digit projection starting with `1`:
this is why the pass-through branch of `format_us_phone_e164` is dead. -/
theorem pyDigits_of_plus_one {v : String} (h : pyStartsWith v "+1" = true) :
    pyStartsWith (pyDigits v) "1" = true := by
  obtain ⟨t, ht⟩ := pyStartsWith_iff.mp h
  have hvd : v.data = '+' :: '1' :: t := by rw [← ht]; rfl
  rw [pyStartsWith_iff]
  have : (pyDigits v).data = '1' :: t.filter Char.isDigit := by
    rw [pyDigits_data, hvd, filter_digit_plus_one]
  rw [this]
  exact ⟨t.filter Char.isDigit, rfl⟩

/-- Every phone `format_us_phone_e164` returns is canonical; in particular
its pass-through branch (`value` starting `+1` with 11 digits) is
unreachable, since such a digit string necessarily starts with `1` and the
earlier branch fires. -/
theorem format_canonical {v r : String} (h : format_us_phone_e164 v = some r) :
    isCanonical r := by
  simp only [format_us_phone_e164] at h
  by_cases h0 : digits_only v = ""
  · rw [if_pos h0] at h
    exact absurd h (by simp)
  rw [if_neg h0] at h
  by_cases h10 : (digits_only v).length = 10
  · rw [if_pos h10] at h
    obtain rfl : "+1" ++ digits_only v = r := by simpa using h
    refine ⟨(digits_only v).data, ?_, ?_, pyDigits_all_digits v⟩
    · rfl
    · rw [string_length_data] at h10
      exact h10
  rw [if_neg h10] at h
  by_cases h11 : (digits_only v).length = 11 ∧ pyStartsWith (digits_only v) "1" = true
  · rw [if_pos h11] at h
    obtain rfl : "+" ++ digits_only v = r := by simpa using h
    obtain ⟨hlen, hstart⟩ := h11
    obtain ⟨t, ht⟩ := pyStartsWith_iff.mp hstart
    have hd : (digits_only v).data = '1' :: t := by rw [← ht]; rfl
    have hall : t.all Char.isDigit = true := by
      simp only [List.all_eq_true]
      intro a ha
      have hmem : a ∈ (pyDigits v).data := by
        rw [show (pyDigits v).data = (digits_only v).data from rfl, hd]
        exact List.mem_cons_of_mem _ ha
      exact List.all_eq_true.mp (pyDigits_all_digits v) a hmem
    refine ⟨t, ?_, ?_, hall⟩
    · show ("+" ++ digits_only v).data = '+' :: '1' :: t
      rw [String.data_append, hd]
      rfl
    · have hlen' : (digits_only v).data.length = 11 := by
        rw [← string_length_data]
        exact hlen
      rw [hd] at hlen'
      simpa using hlen'
  rw [if_neg h11] at h
  by_cases h3 : pyStartsWith v "+1" = true ∧ (digits_only v).length = 11
  · -- pass-through branch: unreachable
    exact absurd ⟨h3.2, pyDigits_of_plus_one h3.1⟩ h11
  · rw [if_neg h3] at h
    exact absurd h (by simp)

/-- `format_us_phone_e164` fixes canonical phones: the digit projection of
`"+1" ++ ds` is the 11-digit string `'1' :: ds`, so the 11-digit branch
returns `"+" ++ "1" ++ ds` = the input. -/
theorem format_fixes_canonical (p : String) (h : isCanonical p) :
    format_us_phone_e164 p = some p := by
  obtain ⟨ds, hdata, hlen, hdig⟩ := h
  have hd : (digits_only p).data = '1' :: ds := canonical_pyDigits hdata hdig
  have hne : digits_only p ≠ "" := by
    intro hcon
    rw [hcon] at hd
    exact absurd hd (by simp)
  have hlen11 : (digits_only p).length = 11 := by
    rw [string_length_data, hd]
    simp [hlen]
  have hstart : pyStartsWith (digits_only p) "1" = true := by
    rw [pyStartsWith_iff, hd]
    exact ⟨ds, rfl⟩
  simp only [format_us_phone_e164]
  rw [if_neg hne, if_neg (by rw [hlen11]; decide), if_pos ⟨hlen11, hstart⟩]
  congr 1
  apply String.ext
  rw [String.data_append, hd, hdata]
  rfl

/-- C8: normalization is idempotent on canonical phones — for every string
of the form `+1` followed by exactly 10 digits, `format_us_phone_e164`
returns it unchanged. -/
theorem c8_normalize_idempotent (p : String) (h : isCanonical p) :
    format_us_phone_e164 p = some p :=
  format_fixes_canonical p h

theorem c8_normalize_idempotent_witness :
    format_us_phone_e164 "+18328107822" = some "+18328107822" :=
  c8_normalize_idempotent "+18328107822"
    ⟨['8', '3', '2', '8', '1', '0', '7', '8', '2', '2'], by decide, by decide, by decide⟩

/-- C5 (amended): `format_us_phone_e164` strips non-digits to `digits`;
10 digits give `"+1" + digits`, 11 digits starting `1` give `"+" + digits`,
anything else gives `none`; a string of the exact canonical form
`+1XXXXXXXXXX` is returned unchanged (via the 11-digit branch), but other
strings beginning with `+1` with digit count 11 are rewritten to
`"+" + digits`, not passed through unchanged (the pass-through branch is
dead code). -/
theorem c5_format_branches (value : String) :
    ((digits_only value).length = 10 →
      format_us_phone_e164 value = some ("+1" ++ digits_only value)) ∧
    ((digits_only value).length = 11 ∧ pyStartsWith (digits_only value) "1" = true →
      format_us_phone_e164 value = some ("+" ++ digits_only value)) ∧
    ((digits_only value).length ≠ 10 ∧
      ¬((digits_only value).length = 11 ∧ pyStartsWith (digits_only value) "1" = true) →
      format_us_phone_e164 value = none) ∧
    (isCanonical value → format_us_phone_e164 value = some value) := by
  refine ⟨?_, ?_, ?_, format_fixes_canonical value⟩
  · intro h10
    have hne : digits_only value ≠ "" := by
      intro hcon
      rw [hcon] at h10
      exact absurd h10 (by decide)
    simp only [format_us_phone_e164]
    rw [if_neg hne, if_pos h10]
  · rintro ⟨h11, hstart⟩
    have hne : digits_only value ≠ "" := by
      intro hcon
      rw [hcon] at h11
      exact absurd h11 (by decide)
    simp only [format_us_phone_e164]
    rw [if_neg hne, if_neg (by rw [h11]; decide), if_pos ⟨h11, hstart⟩]
  · rintro ⟨h10, h11⟩
    by_cases h0 : digits_only value = ""
    · simp only [format_us_phone_e164]
      rw [if_pos h0]
    · simp only [format_us_phone_e164]
      rw [if_neg h0, if_neg h10, if_neg h11, if_neg]
      rintro ⟨hpre, hlen⟩
      exact h11 ⟨hlen, pyDigits_of_plus_one hpre⟩

theorem c5_format_branches_witness :
    format_us_phone_e164 "832-810-7822" = some ("+1" ++ digits_only "832-810-7822") :=
  (c5_format_branches "832-810-7822").1 (by decide)

/-- C5 counterexample: `"+1 832-810-7822"` begins with `+1` and has digit
count 11, but it is not passed through unchanged — the code rewrites it to
`"+18328107822"`. -/
theorem c5_passthrough_counterexample :
    pyStartsWith "+1 832-810-7822" "+1" = true ∧
    (digits_only "+1 832-810-7822").length = 11 ∧
    format_us_phone_e164 "+1 832-810-7822" ≠ some "+1 832-810-7822" ∧
    format_us_phone_e164 "+1 832-810-7822" = some "+18328107822" := by
  refine ⟨by decide, by decide, ?_, by decide⟩
  decide

/-! ## Dedup engine lemmas -/

theorem dedupeGo_sublist (seen : List String) (vs : List String) :
    (dedupeGo seen vs).Sublist vs := by
  induction vs generalizing seen with
  | nil => simp [dedupeGo]
  | cons v ws ih =>
    simp only [dedupeGo]
    by_cases h0 : digits_only v = ""
    · rw [if_pos h0]
      exact (ih seen).cons v
    rw [if_neg h0]
    by_cases h1 : digits_only v ∈ seen
    · rw [if_pos h1]
      exact (ih seen).cons v
    · rw [if_neg h1]
      exact (ih _).cons₂ v

theorem mem_dedupeGo {v : String} {seen vs : List String}
    (h : v ∈ dedupeGo seen vs) :
    digits_only v ≠ "" ∧ digits_only v ∉ seen := by
  induction vs generalizing seen with
  | nil => simp [dedupeGo] at h
  | cons w ws ih =>
    simp only [dedupeGo] at h
    by_cases h0 : digits_only w = ""
    · rw [if_pos h0] at h
      exact ih h
    rw [if_neg h0] at h
    by_cases h1 : digits_only w ∈ seen
    · rw [if_pos h1] at h
      exact ih h
    · rw [if_neg h1] at h
      rcases List.mem_cons.mp h with rfl | h2
      · exact ⟨h0, h1⟩
      · have := ih h2
        exact ⟨this.1, fun hm => this.2 (List.mem_cons_of_mem _ hm)⟩

theorem dedupeGo_keys_nodup (seen : List String) (vs : List String) :
    ((dedupeGo seen vs).map digits_only).Nodup := by
  induction vs generalizing seen with
  | nil => simp [dedupeGo]
  | cons w ws ih =>
    simp only [dedupeGo]
    by_cases h0 : digits_only w = ""
    · rw [if_pos h0]
      exact ih seen
    rw [if_neg h0]
    by_cases h1 : digits_only w ∈ seen
    · rw [if_pos h1]
      exact ih seen
    · rw [if_neg h1]
      simp only [List.map_cons, List.nodup_cons]
      refine ⟨?_, ih _⟩
      intro hmem
      obtain ⟨x, hx, hxe⟩ := List.mem_map.mp hmem
      have := (mem_dedupeGo hx).2
      exact this (hxe ▸ List.mem_cons_self _ _)

theorem dedupeGo_complete {w : String} {seen vs : List String}
    (h : w ∈ vs) (hk : digits_only w ≠ "") (hs : digits_only w ∉ seen) :
    digits_only w ∈ (dedupeGo seen vs).map digits_only := by
  induction vs generalizing seen with
  | nil => simp at h
  | cons v ws ih =>
    simp only [dedupeGo]
    rcases List.mem_cons.mp h with rfl | h2
    · rw [if_neg hk, if_neg hs]
      simp
    · by_cases h0 : digits_only v = ""
      · rw [if_pos h0]
        exact ih h2 hs
      rw [if_neg h0]
      by_cases h1 : digits_only v ∈ seen
      · rw [if_pos h1]
        exact ih h2 hs
      · rw [if_neg h1]
        by_cases he : digits_only w = digits_only v
        · simp [he]
        · simp only [List.map_cons, List.mem_cons]
          right
          refine ih h2 ?_
          intro hmem
          rcases List.mem_cons.mp hmem with hcon | hcon
          · exact he hcon
          · exact hs hcon

theorem dedupeGo_first {v : String} {seen vs : List String}
    (h : v ∈ dedupeGo seen vs) :
    vs.find? (fun w => digits_only w == digits_only v) = some v := by
  induction vs generalizing seen with
  | nil => simp [dedupeGo] at h
  | cons w ws ih =>
    simp only [dedupeGo] at h
    by_cases h0 : digits_only w = ""
    · rw [if_pos h0] at h
      have hv := mem_dedupeGo h
      have hne : (digits_only w == digits_only v) = false := by
        simp only [beq_eq_false_iff_ne, ne_eq, h0]
        exact fun hcon => hv.1 hcon.symm
      simp only [List.find?_cons, hne]
      exact ih h
    rw [if_neg h0] at h
    by_cases h1 : digits_only w ∈ seen
    · rw [if_pos h1] at h
      have hv := mem_dedupeGo h
      have hne : (digits_only w == digits_only v) = false := by
        simp only [beq_eq_false_iff_ne, ne_eq]
        intro hcon
        exact hv.2 (hcon ▸ h1)
      simp only [List.find?_cons, hne]
      exact ih h
    · rw [if_neg h1] at h
      rcases List.mem_cons.mp h with rfl | h2
      · simp [List.find?_cons]
      · have hv := mem_dedupeGo h2
        have hne : (digits_only w == digits_only v) = false := by
          simp only [beq_eq_false_iff_ne, ne_eq]
          intro hcon
          exact hv.2 (hcon ▸ List.mem_cons_self _ _)
        simp only [List.find?_cons, hne]
        exact ih h2

/-- C6: `dedupe_preserve_order` keys candidates by their digits-only
projection, drops blank-key candidates, keeps only the first-seen surface
form of each key, preserves order (the output is a sublist of the input),
covers every nonempty key of the input, and on the spec's example yields
`["832-810-7822", "555-123-4567"]`. -/
theorem c6_dedupe_properties (values : List String) :
    (dedupe_preserve_order values).Sublist values ∧
    (∀ v ∈ dedupe_preserve_order values, digits_only v ≠ "") ∧
    ((dedupe_preserve_order values).map digits_only).Nodup ∧
    (∀ w ∈ values, digits_only w ≠ "" →
      digits_only w ∈ (dedupe_preserve_order values).map digits_only) ∧
    (∀ v ∈ dedupe_preserve_order values,
      values.find? (fun w => digits_only w == digits_only v) = some v) ∧
    dedupe_preserve_order ["832-810-7822", "8328107822", "555-123-4567"]
      = ["832-810-7822", "555-123-4567"] := by
  refine ⟨dedupeGo_sublist [] values, ?_, dedupeGo_keys_nodup [] values, ?_, ?_, by decide⟩
  · intro v hv
    exact (mem_dedupeGo hv).1
  · intro w hw hk
    exact dedupeGo_complete hw hk (by simp)
  · intro v hv
    exact dedupeGo_first hv

theorem c6_dedupe_properties_witness :
    ["832-810-7822", "8328107822", "555-123-4567"].find?
      (fun w => digits_only w == digits_only "832-810-7822") = some "832-810-7822" :=
  (c6_dedupe_properties ["832-810-7822", "8328107822", "555-123-4567"]).2.2.2.2.1
    "832-810-7822" (by decide)

/-! ## Extractor lemmas -/

theorem lexLe_total : ∀ as bs : List Char, lexLe as bs = true ∨ lexLe bs as = true := by
  intro as
  induction as with
  | nil => intro bs; left; rfl
  | cons a as ih =>
    intro bs
    cases bs with
    | nil => right; rfl
    | cons b bs =>
      simp only [lexLe]
      by_cases h1 : a.toNat < b.toNat
      · left
        rw [if_pos h1]
      by_cases h2 : b.toNat < a.toNat
      · right
        rw [if_pos h2]
      · rw [if_neg h1, if_neg h2, if_neg h2, if_neg h1]
        exact ih bs

theorem lexLe_trans : ∀ {as bs cs : List Char},
    lexLe as bs = true → lexLe bs cs = true → lexLe as cs = true := by
  intro as
  induction as with
  | nil => intros; rfl
  | cons a as ih =>
    intro bs cs h1 h2
    cases bs with
    | nil => exact absurd h1 (by simp [lexLe])
    | cons b bs =>
      cases cs with
      | nil => exact absurd h2 (by simp [lexLe])
      | cons c cs =>
        simp only [lexLe] at h1 h2 ⊢
        by_cases hab : a.toNat < b.toNat
        · by_cases hbc : b.toNat < c.toNat
          · rw [if_pos (by omega : a.toNat < c.toNat)]
          · rw [if_neg hbc] at h2
            by_cases hcb : c.toNat < b.toNat
            · rw [if_pos hcb] at h2
              cases h2
            · rw [if_pos (by omega : a.toNat < c.toNat)]
        · rw [if_neg hab] at h1
          by_cases hba : b.toNat < a.toNat
          · rw [if_pos hba] at h1
            cases h1
          · rw [if_neg hba] at h1
            by_cases hbc : b.toNat < c.toNat
            · rw [if_pos (by omega : a.toNat < c.toNat)]
            · rw [if_neg hbc] at h2
              by_cases hcb : c.toNat < b.toNat
              · rw [if_pos hcb] at h2
                cases h2
              · rw [if_neg hcb] at h2
                rw [if_neg (by omega : ¬ a.toNat < c.toNat),
                   if_neg (by omega : ¬ c.toNat < a.toNat)]
                exact ih h1 h2

theorem char_toNat_inj {a b : Char} (h : a.toNat = b.toNat) : a = b := by
  apply Char.ext
  have ha := Char.ofNat_toNat a
  have hb := Char.ofNat_toNat b
  rw [← ha, ← hb, h]

theorem lexLe_antisymm : ∀ {as bs : List Char},
    lexLe as bs = true → lexLe bs as = true → as = bs := by
  intro as
  induction as with
  | nil =>
    intro bs _ h2
    cases bs with
    | nil => rfl
    | cons b bs => exact absurd h2 (by simp [lexLe])
  | cons a as ih =>
    intro bs h1 h2
    cases bs with
    | nil => exact absurd h1 (by simp [lexLe])
    | cons b bs =>
      simp only [lexLe] at h1 h2
      by_cases hab : a.toNat < b.toNat
      · rw [if_neg (by omega : ¬ b.toNat < a.toNat), if_pos hab] at h2
        cases h2
      · rw [if_neg hab] at h1
        by_cases hba : b.toNat < a.toNat
        · rw [if_pos hba] at h1
          cases h1
        · rw [if_neg hba, if_neg hab] at h2
          rw [if_neg hba] at h1
          have : a = b := char_toNat_inj (by omega)
          rw [this, ih h1 h2]

instance : IsTotal String pyLe := ⟨fun a b => lexLe_total a.data b.data⟩

instance : IsTrans String pyLe := ⟨fun _ _ _ h1 h2 => lexLe_trans h1 h2⟩

instance : IsAntisymm String pyLe := ⟨fun _ _ h1 h2 => String.ext (lexLe_antisymm h1 h2)⟩

theorem sorted_pySortedSet (l : List String) : (pySortedSet l).Sorted pyLe :=
  List.sorted_insertionSort _ _

theorem mem_pySortedSet {a : String} {l : List String} :
    a ∈ pySortedSet l ↔ a ∈ l := by
  unfold pySortedSet
  rw [(List.perm_insertionSort _ _).mem_iff, List.mem_dedup]

/-- A sorted set of strings is determined by membership: Python's
`sorted(set(...))` yields equal lists from match lists with equal
membership. -/
theorem pySortedSet_ext {l1 l2 : List String} (h : ∀ s, s ∈ l1 ↔ s ∈ l2) :
    pySortedSet l1 = pySortedSet l2 := by
  refine List.eq_of_perm_of_sorted ?_ (sorted_pySortedSet l1) (sorted_pySortedSet l2)
  refine (List.perm_insertionSort _ _).trans (.trans ?_ (List.perm_insertionSort _ _).symm)
  refine (List.perm_ext_iff_of_nodup (List.nodup_dedup l1) (List.nodup_dedup l2)).mpr ?_
  intro a
  rw [List.mem_dedup, List.mem_dedup]
  exact h a

theorem processPhoneMatch_branches (m : String) :
    ((pyDigits m).length = 10 →
      processPhoneMatch m = some ("+1" ++ pyDigits m)) ∧
    ((pyDigits m).length = 11 ∧ pyStartsWith (pyDigits m) "1" = true →
      processPhoneMatch m = some ("+" ++ pyDigits m)) ∧
    ((pyDigits m).length ≠ 10 ∧
      ¬((pyDigits m).length = 11 ∧ pyStartsWith (pyDigits m) "1" = true) →
      processPhoneMatch m = none) := by
  refine ⟨?_, ?_, ?_⟩
  · intro h10
    simp only [processPhoneMatch]
    rw [if_pos h10, if_pos]
    constructor
    · rw [string_length_data, String.data_append, List.length_append]
      rw [string_length_data] at h10
      simp [h10]
    · rw [pyStartsWith_iff, String.data_append]
      exact ⟨(pyDigits m).data, rfl⟩
  · rintro ⟨h11, hstart⟩
    have h10 : ¬ (pyDigits m).length = 10 := by rw [h11]; decide
    simp only [processPhoneMatch]
    rw [if_neg h10, if_pos (And.intro h11 hstart), if_pos]
    constructor
    · rw [string_length_data, String.data_append, List.length_append]
      rw [string_length_data] at h11
      simp [h11]
    · obtain ⟨t, ht⟩ := pyStartsWith_iff.mp hstart
      rw [pyStartsWith_iff, String.data_append]
      refine ⟨t, ?_⟩
      show ('+' :: "1".data) ++ t = '+' :: (pyDigits m).data
      rw [← ht]
      rfl
  · rintro ⟨h10, h11⟩
    have hcond : ¬ ((pyDigits m).length = 12 ∧ pyStartsWith (pyDigits m) "+1" = true) := by
      rintro ⟨_, hsw⟩
      obtain ⟨t, ht⟩ := pyStartsWith_iff.mp hsw
      have hplus : '+' ∈ (pyDigits m).data := by
        rw [← ht]
        exact List.mem_append_left _ (by decide)
      have := List.all_eq_true.mp (pyDigits_all_digits m) '+' hplus
      exact absurd this (by decide)
    simp only [processPhoneMatch]
    rw [if_neg h10, if_neg h11, if_neg hcond]

theorem processPhoneMatch_canonical {m p : String}
    (h : processPhoneMatch m = some p) : isCanonical p := by
  obtain ⟨b1, b2, b3⟩ := processPhoneMatch_branches m
  by_cases h10 : (pyDigits m).length = 10
  · rw [b1 h10] at h
    obtain rfl : "+1" ++ pyDigits m = p := by simpa using h
    refine ⟨(pyDigits m).data, rfl, ?_, pyDigits_all_digits m⟩
    rw [string_length_data] at h10
    exact h10
  by_cases h11 : (pyDigits m).length = 11 ∧ pyStartsWith (pyDigits m) "1" = true
  · rw [b2 h11] at h
    obtain rfl : "+" ++ pyDigits m = p := by simpa using h
    obtain ⟨t, ht⟩ := pyStartsWith_iff.mp h11.2
    have hd : (pyDigits m).data = '1' :: t := by rw [← ht]; rfl
    refine ⟨t, ?_, ?_, ?_⟩
    · rw [String.data_append, hd]
      rfl
    · have : (pyDigits m).data.length = 11 := by
        rw [← string_length_data]
        exact h11.1
      rw [hd] at this
      simpa using this
    · simp only [List.all_eq_true]
      intro a ha
      exact List.all_eq_true.mp (pyDigits_all_digits m) a (hd ▸ List.mem_cons_of_mem _ ha)
  · rw [b3 ⟨h10, h11⟩] at h
    cases h

/-- C7: every phone the extractor outputs has the exact form `+1` followed
by exactly 10 digits; each regex match is reduced to digits, a 10-digit
match gets `+1` prefixed, an 11-digit match starting `1` gets `+` prefixed,
and any other digit count is discarded. -/
theorem c7_extracted_phone_shape :
    (∀ text : String, ∀ p ∈ (extract_contacts text).phones, isCanonical p) ∧
    (∀ m : String,
      ((pyDigits m).length = 10 →
        processPhoneMatch m = some ("+1" ++ pyDigits m)) ∧
      ((pyDigits m).length = 11 ∧ pyStartsWith (pyDigits m) "1" = true →
        processPhoneMatch m = some ("+" ++ pyDigits m)) ∧
      ((pyDigits m).length ≠ 10 ∧
        ¬((pyDigits m).length = 11 ∧ pyStartsWith (pyDigits m) "1" = true) →
        processPhoneMatch m = none)) := by
  refine ⟨?_, processPhoneMatch_branches⟩
  intro text p hp
  have hp' : p ∈ (phoneMatches text).filterMap processPhoneMatch :=
    mem_pySortedSet.mp hp
  obtain ⟨m, _, hm⟩ := List.mem_filterMap.mp hp'
  exact processPhoneMatch_canonical hm

theorem c7_extracted_phone_shape_witness : isCanonical "+18328107822" :=
  c7_extracted_phone_shape.1 "Call us at 832-810-7822" "+18328107822" (by decide)

/-- C10: the extractor returns phones and emails as `≤`-sorted lists, and
its output depends only on the sets of regex matches, not on their order of
occurrence in the text. -/
theorem c10_extract_sorted_deterministic :
    (∀ text : String,
      (extract_contacts text).phones.Sorted pyLe ∧
      (extract_contacts text).emails.Sorted pyLe) ∧
    (∀ t1 t2 : String,
      (∀ s, s ∈ phoneMatches t1 ↔ s ∈ phoneMatches t2) →
      (∀ s, s ∈ emailMatches t1 ↔ s ∈ emailMatches t2) →
      extract_contacts t1 = extract_contacts t2) := by
  constructor
  · intro text
    exact ⟨sorted_pySortedSet _, sorted_pySortedSet _⟩
  · intro t1 t2 hph hem
    simp only [extract_contacts]
    congr 1
    · apply pySortedSet_ext
      intro s
      rw [List.mem_filterMap, List.mem_filterMap]
      constructor
      · rintro ⟨m, hm, he⟩
        exact ⟨m, (hph m).mp hm, he⟩
      · rintro ⟨m, hm, he⟩
        exact ⟨m, (hph m).mpr hm, he⟩
    · exact pySortedSet_ext hem

/-! ## C3: candidate-list order -/

/-- `processCandidates` preserves the candidate order: a successful run
returns the in-order normalization of an in-order selection (sublist) of
its input. -/
theorem processCandidates_sublist {verifyP : String → Except VErr Bool}
    {cs filtered : List String}
    (h : processCandidates verifyP cs = .ok filtered) :
    ∃ cs' : List String,
      cs'.Sublist cs ∧ filtered = cs'.filterMap format_us_phone_e164 := by
  induction cs generalizing filtered with
  | nil =>
    refine ⟨[], List.Sublist.refl [], ?_⟩
    simp only [processCandidates] at h
    cases h
    rfl
  | cons phone rest ih =>
    simp only [processCandidates] at h
    by_cases hd : digits_only phone = ""
    · rw [if_pos hd] at h
      obtain ⟨cs', hsub, hfm⟩ := ih h
      exact ⟨cs', hsub.cons phone, hfm⟩
    rw [if_neg hd] at h
    split at h
    · obtain ⟨cs', hsub, hfm⟩ := ih h
      exact ⟨cs', hsub.cons phone, hfm⟩
    · split at h
      · cases h
      · next accepted hv =>
        split at h
        · cases h
        · next tail hrec =>
          obtain ⟨cs', hsub, hfm⟩ := ih hrec
          by_cases hb : accepted = true
          · rw [if_pos hb] at h
            split at h
            · next normalized hf =>
              cases h
              refine ⟨phone :: cs', hsub.cons₂ phone, ?_⟩
              rw [List.filterMap_cons, hf, ← hfm]
            · next hf =>
              cases h
              refine ⟨phone :: cs', hsub.cons₂ phone, ?_⟩
              rw [List.filterMap_cons, hf, ← hfm]
          · rw [if_neg hb] at h
            cases h
            exact ⟨cs', hsub.cons phone, hfm⟩

/-- C3 (amended): the merger builds the candidate list as the cleaned CSV
phone (dashes stripped, if nonempty) first, then the extracted phones in
the extractor's output order — which is ascending lexicographic order, not
first-seen-in-text order — and this insertion order determines
primary/secondary selection: the accepted candidates keep the candidate
order, the first becomes `Phone`, the rest `Additional Phones`. -/
theorem c3_candidate_order :
    (∀ rawPhone extracted,
      buildCandidates rawPhone extracted
        = (if clean_csv_phone_for_save rawPhone ≠ ""
           then [clean_csv_phone_for_save rawPhone] else []) ++ extracted) ∧
    (∀ text : String, (extract_contacts text).phones.Sorted pyLe) ∧
    (∀ (verifyP : String → Except VErr Bool) cs filtered,
      processCandidates verifyP cs = .ok filtered →
      ∃ cs' : List String,
        cs'.Sublist cs ∧ filtered = cs'.filterMap format_us_phone_e164) ∧
    (∀ fetch validateEmail verifyP row out,
      enrichRow fetch validateEmail verifyP row = .ok out →
      ∃ filtered, processCandidates verifyP (dedupe_preserve_order
          (buildCandidates row.phone_number (rowContacts fetch row).phones))
            = .ok filtered ∧
        out.phone = (filtered.head?).getD "" ∧ out.addlPhones = filtered.tail) := by
  refine ⟨fun _ _ => rfl, fun _ => sorted_pySortedSet _, ?_, ?_⟩
  · intro verifyP cs filtered h
    exact processCandidates_sublist h
  · intro fetch validateEmail verifyP row out h
    simp only [enrichRow] at h
    cases hp : processCandidates verifyP (dedupe_preserve_order
        (buildCandidates row.phone_number (rowContacts fetch row).phones)) with
    | error e =>
      rw [hp] at h
      cases h
    | ok filtered =>
      rw [hp] at h
      obtain rfl : RowOut.mk ((filtered.head?).getD "") filtered.tail
          (validEmails validateEmail (rowContacts fetch row).emails) = out := by
        cases h
        rfl
      exact ⟨filtered, rfl, rfl, rfl⟩

theorem c3_candidate_order_witness :
    ∃ filtered, processCandidates (fun _ => Except.ok true) (dedupe_preserve_order
        (buildCandidates (RowIn.mk "832-810-7822" "").phone_number
          (rowContacts (fun _ => "") (RowIn.mk "832-810-7822" "")).phones))
          = .ok filtered ∧
      (RowOut.mk "+18328107822" [] []).phone = (filtered.head?).getD "" ∧
      (RowOut.mk "+18328107822" [] []).addlPhones = filtered.tail :=
  c3_candidate_order.2.2.2 (fun _ => "") (fun _ => none) (fun _ => Except.ok true)
    (RowIn.mk "832-810-7822" "") (RowOut.mk "+18328107822" [] []) rfl

/-- C3 counterexample: on a page where `999-555-1234` appears before
`111-555-1234`, the extractor outputs the phones in sorted order, so the
merger's candidate list is NOT the CSV phone followed by the extracted
phones in first-seen-in-text order. -/
theorem c3_counterexample :
    buildCandidates "832-810-7822"
        (extract_contacts "Call 999-555-1234 then 111-555-1234").phones
      = ["8328107822", "+11115551234", "+19995551234"] ∧
    phonesFirstSeen "Call 999-555-1234 then 111-555-1234"
      = ["+19995551234", "+11115551234"] ∧
    buildCandidates "832-810-7822"
        (extract_contacts "Call 999-555-1234 then 111-555-1234").phones
      ≠ "8328107822" :: phonesFirstSeen "Call 999-555-1234 then 111-555-1234" := by
  refine ⟨by decide, by decide, ?_⟩
  decide

theorem c10_extract_sorted_deterministic_witness :
    extract_contacts "832-810-7822 x 111-222-3333"
      = extract_contacts "111-222-3333 and 832-810-7822" :=
  c10_extract_sorted_deterministic.2
    "832-810-7822 x 111-222-3333" "111-222-3333 and 832-810-7822"
    (by
      intro s
      rw [show phoneMatches "832-810-7822 x 111-222-3333"
            = ["832-810-7822", "111-222-3333"] from by decide,
          show phoneMatches "111-222-3333 and 832-810-7822"
            = ["111-222-3333", "832-810-7822"] from by decide]
      simp only [List.mem_cons, List.not_mem_nil, or_false]
      exact or_comm)
    (by
      intro s
      rw [show emailMatches "832-810-7822 x 111-222-3333" = [] from by decide,
          show emailMatches "111-222-3333 and 832-810-7822" = [] from by decide])

/-! ## C1: fail-closed phone verification -/

/-- C1: with the credential configured, `verify_phone` on a digit-string
candidate returns, without raising, exactly the spec's acceptance policy on
the service's response: `true` iff valid AND not disposable AND the line
type is `mobile` or `fixed_line_or_mobile`; a transport error or malformed
response yields `false`. -/
theorem c1_verify_fail_closed (apiKey : Option String) (respond : String → ApiOutcome)
    (number : String)
    (hk : ∃ k, apiKey = some k ∧ k ≠ "")
    (hnum : number ≠ "" ∧ number.data.all Char.isDigit = true) :
    verify_phone apiKey respond number = .ok (specAcceptPolicy (respond number)) := by
  obtain ⟨k, rfl, hk'⟩ := hk
  obtain ⟨hne, hdig⟩ := hnum
  have hself : pyDigits number = number := by
    apply String.ext
    rw [pyDigits_data, List.filter_eq_self.mpr]
    intro a ha
    exact List.all_eq_true.mp hdig a ha
  simp only [verify_phone]
  rw [if_neg hk', hself, if_neg hne]
  cases respond number with
  | transportError => rfl
  | malformed => rfl
  | success valid lineType disposable =>
    cases valid with
    | false => rfl
    | true =>
      cases disposable with
      | true => rfl
      | false =>
        simp only [specAcceptPolicy, Bool.not_true, Bool.false_eq_true, if_false,
          Bool.true_and, Bool.not_false]
        by_cases hl1 : pyLower lineType = "mobile"
        · rw [if_pos (Or.inl hl1)]
          simp [hl1]
        · by_cases hl2 : pyLower lineType = "fixed_line_or_mobile"
          · rw [if_pos (Or.inr hl2)]
            simp [hl2]
          · rw [if_neg (by tauto)]
            simp only [Except.ok.injEq]
            exact (by simp [beq_eq_false_iff_ne, hl1, hl2] :
              (pyLower lineType == "mobile"
                || pyLower lineType == "fixed_line_or_mobile") = false).symm

theorem c1_verify_fail_closed_witness :
    verify_phone (some "k") (fun _ => ApiOutcome.success true "mobile" false) "8328107822"
      = .ok (specAcceptPolicy
          ((fun _ => ApiOutcome.success true "mobile" false) "8328107822")) :=
  c1_verify_fail_closed (some "k") (fun _ => ApiOutcome.success true "mobile" false)
    "8328107822" ⟨"k", rfl, by decide⟩ ⟨by decide, by decide⟩

/-! ## C4: missing credential -/

theorem pyInt_of_digits {s : String} (hne : s ≠ "")
    (hall : s.data.all Char.isDigit = true) : ∃ n, pyInt s = some n := by
  simp only [pyInt]
  rw [if_pos ⟨hne, hall⟩]
  exact ⟨_, rfl⟩

/-- With the key missing, `processCandidates` raises at the first candidate
whose digit projection is nonempty — and every survivor of the dedup stage
has one. -/
theorem processCandidates_missing_key (respond : String → ApiOutcome)
    (cs : List String) (hcs : ∀ v ∈ cs, digits_only v ≠ "") :
    processCandidates (verify_phone none respond) cs
      = if cs = [] then .ok [] else .error .valueError := by
  cases cs with
  | nil => rfl
  | cons v rest =>
    rw [if_neg (by simp)]
    have hd : digits_only v ≠ "" := hcs v (List.mem_cons_self _ _)
    have hall : (digits_only v).data.all Char.isDigit = true := pyDigits_all_digits v
    obtain ⟨n, hn⟩ := pyInt_of_digits hd hall
    simp only [processCandidates]
    rw [if_neg hd]
    split
    · next hnone =>
      rw [hnone] at hn
      cases hn
    · rfl

/-- C4 (amended): the missing credential is not detected at startup — it is
raised per call.  `verify_phone` raises `ValueError` on every invocation
when the key is unset or empty; a row with no surviving candidates is
processed normally despite the missing key; a row with a candidate aborts
the enrichment with the `ValueError`; and a whole run over candidate-free
rows completes successfully, its records fully processed. -/
theorem c4_missing_key_behavior :
    (∀ apiKey respond number, (apiKey = none ∨ apiKey = some "") →
      verify_phone apiKey respond number = .error .valueError) ∧
    (∀ fetch validateEmail respond row,
      dedupe_preserve_order (buildCandidates row.phone_number
        (rowContacts fetch row).phones) = [] →
      enrichRow fetch validateEmail (verify_phone none respond) row
        = .ok (RowOut.mk "" []
            (validEmails validateEmail (rowContacts fetch row).emails))) ∧
    (∀ fetch validateEmail respond row,
      dedupe_preserve_order (buildCandidates row.phone_number
        (rowContacts fetch row).phones) ≠ [] →
      enrichRow fetch validateEmail (verify_phone none respond) row
        = .error .valueError) ∧
    (∀ fetch validateEmail respond rows,
      (∀ row ∈ rows, dedupe_preserve_order (buildCandidates row.phone_number
          (rowContacts fetch row).phones) = []) →
      enrich_csv fetch validateEmail none respond rows
        = .ok (rows.map (fun row => RowOut.mk "" []
            (validEmails validateEmail (rowContacts fetch row).emails)))) := by
  have hrow0 : ∀ fetch validateEmail respond row,
      dedupe_preserve_order (buildCandidates row.phone_number
        (rowContacts fetch row).phones) = [] →
      enrichRow fetch validateEmail (verify_phone none respond) row
        = .ok (RowOut.mk "" []
            (validEmails validateEmail (rowContacts fetch row).emails)) := by
    intro fetch validateEmail respond row h0
    simp only [enrichRow]
    rw [processCandidates_missing_key respond
      (dedupe_preserve_order (buildCandidates row.phone_number
        (rowContacts fetch row).phones))
      (fun v hv => (mem_dedupeGo hv).1), if_pos h0]
    rfl
  refine ⟨?_, hrow0, ?_, ?_⟩
  · rintro apiKey respond number (rfl | rfl) <;> rfl
  · intro fetch validateEmail respond row h0
    simp only [enrichRow]
    rw [processCandidates_missing_key respond
      (dedupe_preserve_order (buildCandidates row.phone_number
        (rowContacts fetch row).phones))
      (fun v hv => (mem_dedupeGo hv).1), if_neg h0]
  · intro fetch validateEmail respond rows hall
    induction rows with
    | nil => rfl
    | cons row rest ih =>
      have ih' := ih (fun r hr => hall r (List.mem_cons_of_mem _ hr))
      simp only [enrich_csv, List.mapM_cons] at ih' ⊢
      rw [hrow0 fetch validateEmail respond row (hall row (List.mem_cons_self _ _)), ih']
      rfl

theorem c4_missing_key_behavior_witness :
    enrichRow (fun _ => "") (fun _ => none)
        (verify_phone none (fun _ => ApiOutcome.transportError))
        (RowIn.mk "832-810-7822" "") = .error .valueError :=
  c4_missing_key_behavior.2.2.1 (fun _ => "") (fun _ => none)
    (fun _ => ApiOutcome.transportError) (RowIn.mk "832-810-7822" "") (by decide)

/-- C4 counterexample: with the credential missing, a run over a record
with no phone candidates completes successfully — the record is fully
processed and nothing aborts at startup; the error only surfaces (as a
per-candidate `ValueError`) once a record actually has a candidate. -/
theorem c4_counterexample :
    enrich_csv (fun _ => "") (fun _ => none) none (fun _ => ApiOutcome.transportError)
        [RowIn.mk "" ""] = .ok [RowOut.mk "" [] []] ∧
    enrich_csv (fun _ => "") (fun _ => none) none (fun _ => ApiOutcome.transportError)
        [RowIn.mk "" ""] ≠ .error .valueError ∧
    enrich_csv (fun _ => "") (fun _ => none) none (fun _ => ApiOutcome.transportError)
        [RowIn.mk "" "", RowIn.mk "832-810-7822" ""] = .error .valueError := by
  refine ⟨rfl, ?_, rfl⟩
  intro hcon
  have h1 : enrich_csv (fun _ => "") (fun _ => none) none
      (fun _ => ApiOutcome.transportError) [RowIn.mk "" ""]
        = Except.ok [RowOut.mk "" [] []] := rfl
  rw [h1] at hcon
  cases hcon

/-! ## C2: the final output's no-duplicate invariant -/

theorem processCandidates_all_canonical {verifyP : String → Except VErr Bool}
    {cs filtered : List String}
    (h : processCandidates verifyP cs = .ok filtered) :
    ∀ p ∈ filtered, isCanonical p := by
  obtain ⟨cs', _, rfl⟩ := processCandidates_sublist h
  intro p hp
  obtain ⟨q, _, hq⟩ := List.mem_filterMap.mp hp
  exact format_canonical hq

theorem canonical_ne_empty {p : String} (h : isCanonical p) : p ≠ "" := by
  obtain ⟨ds, hdata, _, _⟩ := h
  intro hcon
  rw [hcon] at hdata
  exact absurd hdata (by simp)

theorem canonical_mem_digit {p : String} (h : isCanonical p) {c : Char}
    (hc : c ∈ p.data) : c = '+' ∨ c = '1' ∨ c.isDigit = true := by
  obtain ⟨ds, hdata, _, hdig⟩ := h
  rw [hdata] at hc
  rcases List.mem_cons.mp hc with rfl | hc
  · exact Or.inl rfl
  rcases List.mem_cons.mp hc with rfl | hc
  · exact Or.inr (Or.inl rfl)
  · exact Or.inr (Or.inr (List.all_eq_true.mp hdig c hc))

theorem pyStrip_canonical {p : String} (h : isCanonical p) : pyStrip p = p := by
  obtain ⟨ds, hdata, hlen, hdig⟩ := h
  have hds : ds ≠ [] := by
    intro hcon
    rw [hcon] at hlen
    cases hlen
  obtain ⟨e, es, hrev⟩ : ∃ e es, ds.reverse = e :: es := by
    cases hr : ds.reverse with
    | nil => exact absurd (List.reverse_eq_nil_iff.mp hr) hds
    | cons e es => exact ⟨e, es, rfl⟩
  have he : e.isDigit = true := by
    have : e ∈ ds := by
      rw [← List.mem_reverse, hrev]
      exact List.mem_cons_self _ _
    exact List.all_eq_true.mp hdig e this
  apply String.ext
  show ((p.data.dropWhile pyIsSpace).reverse.dropWhile pyIsSpace).reverse
      = p.data
  rw [hdata]
  rw [List.dropWhile_cons_of_neg (by decide)]
  have : ('+' :: '1' :: ds).reverse = e :: (es ++ ['1', '+']) := by
    simp [hrev]
  rw [this, List.dropWhile_cons_of_neg (by rw [digit_not_pySpace he]; simp)]
  rw [← this]
  simp

theorem pyLower_canonical_ne_nan {p : String} (h : isCanonical p) :
    pyLower p ≠ "nan" := by
  obtain ⟨ds, hdata, _, _⟩ := h
  intro hcon
  have : (pyLower p).data = "nan".data := by rw [hcon]
  rw [show (pyLower p).data = p.data.map Char.toLower from rfl, hdata] at this
  simp at this

theorem pyEndsWith_canonical_dot0 {p : String} (h : isCanonical p) :
    pyEndsWith p ".0" = false := by
  rw [Bool.eq_false_iff]
  intro hcon
  have hsuf : (".0" : String).data <:+ p.data := by
    have := List.isSuffixOf_iff_suffix.mp hcon
    exact this
  obtain ⟨t, ht⟩ := hsuf
  have hdot : '.' ∈ p.data := by
    rw [← ht]
    exact List.mem_append_right _ (by decide)
  rcases canonical_mem_digit h hdot with h1 | h1 | h1 <;> exact absurd h1 (by decide)

theorem pyStartsWith_canonical_plus {p : String} (h : isCanonical p) :
    pyStartsWith p "+" = true := by
  obtain ⟨ds, hdata, _, _⟩ := h
  rw [pyStartsWith_iff]
  exact ⟨'1' :: ds, by rw [hdata]; rfl⟩

/-- `combined.add_plus1` leaves canonical phones unchanged. -/
theorem add_plus1_canonical {p : String} (h : isCanonical p) : add_plus1 p = p := by
  simp only [add_plus1]
  rw [if_neg (not_or.mpr ⟨canonical_ne_empty h, pyLower_canonical_ne_nan h⟩)]
  rw [pyStrip_canonical h, pyEndsWith_canonical_dot0 h]
  simp only [Bool.false_eq_true, if_false]
  rw [pyStartsWith_canonical_plus h]
  simp

theorem mem_validEmailsGo {validateEmail : String → Option String}
    {e : String} {seen ems : List String}
    (h : e ∈ validEmailsGo validateEmail seen ems) :
    pyLower e = e ∧ e ∉ seen := by
  induction ems generalizing seen with
  | nil => simp [validEmailsGo] at h
  | cons em rest ih =>
    simp only [validEmailsGo] at h
    by_cases h0 : pyStrip em = ""
    · rw [if_pos h0] at h
      exact ih h
    rw [if_neg h0] at h
    split at h
    · exact ih h
    · next info hv =>
      by_cases h1 : pyLower info ∈ seen
      · rw [if_pos h1] at h
        exact ih h
      · rw [if_neg h1] at h
        rcases List.mem_cons.mp h with rfl | h2
        · exact ⟨pyLower_idem info, h1⟩
        · have := ih h2
          exact ⟨this.1, fun hm => this.2 (List.mem_cons_of_mem _ hm)⟩

/-- In a duplicate-free list of `pyLower`-fixed strings, no tail element
matches the head case-insensitively. -/
theorem head_not_in_tail_lower {l : List String} (hnodup : l.Nodup)
    (hlow : ∀ x ∈ l, pyLower x = x) :
    ∀ e ∈ l.tail, pyLower e ≠ pyLower ((l.head?).getD "") := by
  cases l with
  | nil => simp
  | cons e0 rest =>
    intro e he hcon
    rw [hlow e (List.mem_cons_of_mem _ he),
      show (((e0 :: rest).head?).getD "") = e0 from rfl,
      hlow e0 (List.mem_cons_self _ _)] at hcon
    exact (List.nodup_cons.mp hnodup).1 (hcon ▸ he)

theorem validEmailsGo_nodup (validateEmail : String → Option String)
    (seen ems : List String) :
    (validEmailsGo validateEmail seen ems).Nodup := by
  induction ems generalizing seen with
  | nil => simp [validEmailsGo]
  | cons em rest ih =>
    simp only [validEmailsGo]
    by_cases h0 : pyStrip em = ""
    · rw [if_pos h0]
      exact ih seen
    rw [if_neg h0]
    split
    · exact ih seen
    · next info hv =>
      by_cases h1 : pyLower info ∈ seen
      · rw [if_pos h1]
        exact ih seen
      · rw [if_neg h1]
        refine List.nodup_cons.mpr ⟨?_, ih _⟩
        intro hmem
        exact (mem_validEmailsGo hmem).2 (List.mem_cons_self _ _)

/-- C2: in the final output, `Phone` never occurs in `Additional Phones`
under canonical-digit identity, and `Email` never occurs in
`Additional Emails` under case-insensitive identity. -/
theorem c2_final_no_duplicates
    (fetch : String → String) (validateEmail : String → Option String)
    (verifyP : String → Except VErr Bool) (row : RowIn) (out : RowOut)
    (h : enrichRow fetch validateEmail verifyP row = .ok out) :
    (∀ q ∈ (finalizeRow out).addlPhones,
      pyDigits q ≠ pyDigits (finalizeRow out).phone) ∧
    (∀ e ∈ (finalizeRow out).addlEmails,
      pyLower e ≠ pyLower (finalizeRow out).email) := by
  simp only [enrichRow] at h
  cases hp : processCandidates verifyP (dedupe_preserve_order
      (buildCandidates row.phone_number (rowContacts fetch row).phones)) with
  | error e =>
    rw [hp] at h
    cases h
  | ok filtered =>
    rw [hp] at h
    have hcan := processCandidates_all_canonical hp
    obtain rfl : RowOut.mk ((filtered.head?).getD "") filtered.tail
        (validEmails validateEmail (rowContacts fetch row).emails) = out := by
      cases h
      rfl
    constructor
    · -- phones
      intro q hq
      cases filtered with
      | nil => simp [finalizeRow, clean_additional_phones] at hq
      | cons p tl =>
        have hpcan : isCanonical p := hcan p (List.mem_cons_self _ _)
        have hphone : (finalizeRow (RowOut.mk
            (((p :: tl).head?).getD "") (p :: tl).tail
            (validEmails validateEmail (rowContacts fetch row).emails))).phone
              = p := by
          simp only [finalizeRow, List.head?, Option.getD]
          exact add_plus1_canonical hpcan
        rw [hphone]
        simp only [finalizeRow, List.head?, Option.getD, List.tail,
          clean_additional_phones, List.mem_filter, List.mem_map] at hq
        obtain ⟨⟨q0, hq0mem, hq0⟩, hfilt⟩ := hq
        have hq0can : isCanonical q0 := hcan q0 (List.mem_cons_of_mem _ hq0mem)
        have hqq0 : q = q0 := by
          rw [← hq0, pyStrip_canonical hq0can, add_plus1_canonical hq0can]
        subst hqq0
        have hqp : q ≠ pyStrip (add_plus1 p) := (of_decide_eq_true hfilt).2
        rw [add_plus1_canonical hpcan, pyStrip_canonical hpcan] at hqp
        intro hcon
        exact hqp (canonical_inj hq0can hpcan hcon)
    · -- emails
      intro e he
      exact head_not_in_tail_lower
        (validEmailsGo_nodup validateEmail [] (rowContacts fetch row).emails)
        (fun x hx => (mem_validEmailsGo hx).1) e he

theorem c2_final_no_duplicates_witness :
    (∀ q ∈ (finalizeRow (RowOut.mk "+18328107822" [] [])).addlPhones,
      pyDigits q ≠ pyDigits (finalizeRow (RowOut.mk "+18328107822" [] [])).phone) ∧
    (∀ e ∈ (finalizeRow (RowOut.mk "+18328107822" [] [])).addlEmails,
      pyLower e ≠ pyLower (finalizeRow (RowOut.mk "+18328107822" [] [])).email) :=
  c2_final_no_duplicates (fun _ => "") (fun s => some s) (fun _ => Except.ok true)
    (RowIn.mk "832-810-7822" "") (RowOut.mk "+18328107822" [] []) rfl

/-! ## C9: URL normalization -/

theorem dropWhile_head_neg {p : Char → Bool} {a : Char} {l : List Char}
    (h : p a = false) : (a :: l).dropWhile p = a :: l :=
  List.dropWhile_cons_of_neg (by rw [h]; simp)

theorem pyStrip_of_no_ws {s : String}
    (h : ∀ c ∈ s.data, pyIsSpace c = false) : pyStrip s = s := by
  apply String.ext
  show ((s.data.dropWhile pyIsSpace).reverse.dropWhile pyIsSpace).reverse
      = s.data
  cases hd : s.data with
  | nil => simp
  | cons a l =>
    rw [dropWhile_head_neg (h a (hd ▸ List.mem_cons_self _ _))]
    cases hr : (a :: l).reverse with
    | nil => exact absurd hr (by simp)
    | cons e es =>
      have he : e ∈ s.data := by
        rw [hd, ← List.mem_reverse, hr]
        exact List.mem_cons_self _ _
      rw [dropWhile_head_neg (h e he), ← hr]
      simp

theorem takeWhile_all {p : Char → Bool} {l : List Char}
    (h : ∀ c ∈ l, p c = true) : l.takeWhile p = l := by
  induction l with
  | nil => rfl
  | cons a l ih =>
    rw [List.takeWhile_cons_of_pos (h a (List.mem_cons_self _ _))]
    rw [ih (fun c hc => h c (List.mem_cons_of_mem _ hc))]

theorem startsWith_https_append (a b : String) :
    pyStartsWith ("https://" ++ a ++ b) "https://" = true := by
  rw [pyStartsWith_iff, String.data_append, String.data_append, List.append_assoc]
  exact ⟨_, rfl⟩

theorem filter_all {p : Char → Bool} {l : List Char}
    (h : ∀ c ∈ l, p c = true) : l.filter p = l := by
  induction l with
  | nil => rfl
  | cons a l ih =>
    rw [List.filter_cons_of_pos (h a (List.mem_cons_self _ _)),
      ih (fun c hc => h c (List.mem_cons_of_mem _ hc))]

theorem tabCrLf_false_of_not_space {c : Char} (h : pyIsSpace c = false) :
    (c == '\t' || c == '\r' || c == '\n') = false := by
  rw [Bool.eq_false_iff] at h ⊢
  intro hcon
  simp only [Bool.or_eq_true, beq_iff_eq] at hcon
  rcases hcon with (rfl | rfl) | rfl <;> exact h (by decide)

/-- Every character of the netloc `urlparse` derives is a character of the
parsed string (the sanitizing filter, the scheme drop and the `takeWhile`
each only select characters of the input). -/
theorem mem_urlNetlocPath_fst {c : Char} {s : String}
    (h : c ∈ (urlNetlocPath s).1) : c ∈ s.data := by
  simp only [urlNetlocPath] at h
  by_cases hpre : (("https://" : String).data.isPrefixOf (urlSanitize s)) = true
  · rw [if_pos hpre] at h
    exact (List.filter_sublist _).subset
      ((List.drop_sublist _ _).subset ((List.takeWhile_sublist _).subset h))
  · rw [if_neg hpre] at h
    exact (List.filter_sublist _).subset
      ((List.drop_sublist _ _).subset ((List.takeWhile_sublist _).subset h))

theorem mem_ensureScheme {c : Char} {s : String}
    (h : c ∈ (ensureScheme s).data) :
    c ∈ s.data ∨ c ∈ ("https://" : String).data := by
  simp only [ensureScheme] at h
  by_cases hpre : (pyStartsWith s "http://" || pyStartsWith s "https://") = true
  · rw [if_pos hpre] at h
    exact Or.inl h
  · rw [if_neg hpre] at h
    rw [String.data_append] at h
    rcases List.mem_append.mp h with h1 | h1
    · exact Or.inr h1
    · exact Or.inl h1

theorem urlHostPath_invalid {s : String}
    (h : invalidIPv6Netloc (urlNetlocPath s).1) :
    urlHostPath s = .error .invalidIPv6 := by
  simp only [urlHostPath]
  rw [if_pos h]

theorem urlHostPath_valid {s : String}
    (h : ¬ invalidIPv6Netloc (urlNetlocPath s).1) :
    urlHostPath s =
      if (urlNetlocPath s).1 = [] ∧ (urlNetlocPath s).2 ≠ [] then
        .ok ((urlNetlocPath s).2, []) else .ok (urlNetlocPath s) := by
  simp only [urlHostPath]
  rw [if_neg h]

theorem normalize_url_cond_case {raw : String}
    (hcond : pyStrip raw = "" ∨ pyLower (pyStrip raw) = "nan"
      ∨ pyLower (pyStrip raw) = "none" ∨ pyLower (pyStrip raw) = "null") :
    normalize_url raw = .ok none := by
  simp only [normalize_url]
  rw [if_pos hcond]

theorem normalize_url_ok_case {raw : String} {hp : List Char × List Char}
    (hcond : ¬ (pyStrip raw = "" ∨ pyLower (pyStrip raw) = "nan"
      ∨ pyLower (pyStrip raw) = "none" ∨ pyLower (pyStrip raw) = "null"))
    (hhp : urlHostPath (ensureScheme (pyStrip raw)) = .ok hp) :
    normalize_url raw = if hp.1 = [] then .ok none
      else .ok (some ("https://" ++
        (if ¬ pyStartsWith (pyLower ⟨hp.1⟩) "www." = true ∧ hp.1.count '.' = 1
         then "www." ++ (⟨hp.1⟩ : String) else (⟨hp.1⟩ : String)) ++
        (if hp.2 = [] then "/" else (⟨hp.2⟩ : String)))) := by
  simp only [normalize_url]
  rw [if_neg hcond]
  split
  · next e heq =>
    rw [heq] at hhp
    cases hhp
  · next hp' heq =>
    rw [heq] at hhp
    injection hhp with h2
    subst h2
    rfl

theorem normalize_url_error_case {raw : String} {e : UrlErr}
    (hcond : ¬ (pyStrip raw = "" ∨ pyLower (pyStrip raw) = "nan"
      ∨ pyLower (pyStrip raw) = "none" ∨ pyLower (pyStrip raw) = "null"))
    (hhp : urlHostPath (ensureScheme (pyStrip raw)) = .error e) :
    normalize_url raw = .error e := by
  simp only [normalize_url]
  rw [if_neg hcond]
  split
  · next e' heq =>
    rw [heq] at hhp
  · next hp' heq =>
    rw [heq] at hhp
    cases hhp

/-- C9 (amended): every URL `normalize_url` returns has scheme `https`; on a
bare host string (no `/?#`, no brackets, no Python whitespace, not a
NaN/None/Null marker) it returns `https://<host>/`, prefixing `www.`
exactly when the host contains exactly one dot and does not already start
with `www.` (the path defaulting to `/`); on inputs whose strip contains no
bracket, it returns no URL — the fetch skipped, not attempted and failed —
exactly when the input strips to empty, is a NaN/None/Null marker, or
derives neither netloc nor path; but when the derived netloc contains an
unbalanced `[` or `]` it instead raises `urlparse`'s
`ValueError("Invalid IPv6 URL")` (aborting the enrichment pass), exactly
when that netloc condition holds — so the original claim's "returns no URL
when no host can be derived" fails on such inputs. -/
theorem c9_normalize_url :
    (∀ raw url, normalize_url raw = .ok (some url) →
      pyStartsWith url "https://" = true) ∧
    (∀ h : String, h ≠ "" →
      h.data.all (fun c =>
        !(c == '/' || c == '?' || c == '#' || c == '[' || c == ']')
          && !pyIsSpace c) = true →
      pyLower h ≠ "nan" → pyLower h ≠ "none" → pyLower h ≠ "null" →
      normalize_url h = .ok (some ("https://" ++
        (if ¬ pyStartsWith (pyLower h) "www." = true ∧ h.data.count '.' = 1
         then "www." ++ h else h) ++ "/"))) ∧
    (∀ raw, '[' ∉ (pyStrip raw).data → ']' ∉ (pyStrip raw).data →
      (normalize_url raw = .ok none ↔
        (pyStrip raw = "" ∨ pyLower (pyStrip raw) = "nan"
          ∨ pyLower (pyStrip raw) = "none" ∨ pyLower (pyStrip raw) = "null"
          ∨ ((urlNetlocPath (ensureScheme (pyStrip raw))).1 = []
              ∧ (urlNetlocPath (ensureScheme (pyStrip raw))).2 = [])))) ∧
    (∀ raw, normalize_url raw = .error .invalidIPv6 ↔
      (¬ (pyStrip raw = "" ∨ pyLower (pyStrip raw) = "nan"
          ∨ pyLower (pyStrip raw) = "none" ∨ pyLower (pyStrip raw) = "null")
        ∧ invalidIPv6Netloc (urlNetlocPath (ensureScheme (pyStrip raw))).1)) := by
  refine ⟨?_, ?_, ?_, ?_⟩
  · intro raw url h
    simp only [normalize_url] at h
    by_cases h0 : pyStrip raw = "" ∨ pyLower (pyStrip raw) = "nan"
        ∨ pyLower (pyStrip raw) = "none" ∨ pyLower (pyStrip raw) = "null"
    · rw [if_pos h0] at h
      simp at h
    rw [if_neg h0] at h
    split at h
    · next e heq =>
      cases h
    · next hp heq =>
      by_cases h1 : hp.1 = []
      · rw [if_pos h1] at h
        simp at h
      · rw [if_neg h1] at h
        injection h with h2
        injection h2 with h3
        subst h3
        exact startsWith_https_append _ _
  · intro h hne hall hnan hnone hnull
    have hchar : ∀ c ∈ h.data,
        (c == '/' || c == '?' || c == '#' || c == '[' || c == ']') = false ∧
          pyIsSpace c = false := by
      intro c hc
      have := List.all_eq_true.mp hall c hc
      rw [Bool.and_eq_true, Bool.not_eq_true', Bool.not_eq_true'] at this
      exact this
    have hs : pyStrip h = h := pyStrip_of_no_ws (fun c hc => (hchar c hc).2)
    have hnoslash : ∀ pre : String, '/' ∈ pre.data → pyStartsWith h pre = false := by
      intro pre hslash
      rw [Bool.eq_false_iff]
      intro hcon
      obtain ⟨t, ht⟩ := pyStartsWith_iff.mp hcon
      have : '/' ∈ h.data := by
        rw [← ht]
        exact List.mem_append_left _ hslash
      have := (hchar '/' this).1
      simp at this
    have hsch : ensureScheme h = "https://" ++ h := by
      simp only [ensureScheme]
      rw [hnoslash "http://" (by decide), hnoslash "https://" (by decide)]
      simp
    have hdata_ne : h.data ≠ [] := fun hc => hne (String.ext hc)
    have hsan : urlSanitize ("https://" ++ h)
        = ("https://" : String).data ++ h.data := by
      simp only [urlSanitize, String.data_append, List.filter_append]
      rw [show List.filter (fun c => !(c == '\t' || c == '\r' || c == '\n'))
            ("https://" : String).data = ("https://" : String).data from by decide]
      rw [filter_all (fun c hc => by
        rw [tabCrLf_false_of_not_space ((hchar c hc).2)]
        rfl)]
    have htake : h.data.takeWhile (fun c => !(c == '/' || c == '?' || c == '#'))
        = h.data := by
      refine takeWhile_all ?_
      intro c hc
      have h5 := (hchar c hc).1
      rw [Bool.or_eq_false_iff, Bool.or_eq_false_iff] at h5
      rw [h5.1.1]
      rfl
    have hnp : urlNetlocPath (ensureScheme h) = (h.data, ([] : List Char)) := by
      rw [hsch]
      simp only [urlNetlocPath]
      rw [hsan]
      rw [if_pos (List.isPrefixOf_iff_prefix.mpr (List.prefix_append _ _))]
      rw [show (8 : Nat) = ("https://" : String).data.length from rfl,
        List.drop_left, htake, List.drop_length]
      rfl
    have hbrackets : ¬ invalidIPv6Netloc (h.data, ([] : List Char)).1 := by
      rintro (⟨hin, _⟩ | ⟨hin, _⟩)
      · exact absurd ((hchar '[' hin).1) (by decide)
      · exact absurd ((hchar ']' hin).1) (by decide)
    have hcond : ¬ (pyStrip h = "" ∨ pyLower (pyStrip h) = "nan"
        ∨ pyLower (pyStrip h) = "none" ∨ pyLower (pyStrip h) = "null") := by
      rw [hs]
      simp only [not_or]
      exact ⟨hne, hnan, hnone, hnull⟩
    have hhp : urlHostPath (ensureScheme (pyStrip h))
        = .ok (h.data, ([] : List Char)) := by
      rw [hs]
      simp only [urlHostPath]
      rw [hnp]
      rw [if_neg hbrackets]
      rw [if_neg (by rintro ⟨hc, _⟩; exact hdata_ne hc)]
    rw [normalize_url_ok_case hcond hhp,
      if_neg (show ¬ ((h.data, ([] : List Char)).1 = []) from hdata_ne)]
    rfl
  · intro raw hbl hbr
    by_cases hcond : pyStrip raw = "" ∨ pyLower (pyStrip raw) = "nan"
        ∨ pyLower (pyStrip raw) = "none" ∨ pyLower (pyStrip raw) = "null"
    · rw [normalize_url_cond_case hcond]
      exact ⟨fun _ => by tauto, fun _ => rfl⟩
    · have hnobr : ¬ invalidIPv6Netloc
          (urlNetlocPath (ensureScheme (pyStrip raw))).1 := by
        have hnb : ∀ c : Char,
            c ∈ (urlNetlocPath (ensureScheme (pyStrip raw))).1 →
            c ∈ ("https://" : String).data ∨ c ∈ (pyStrip raw).data := by
          intro c hcmem
          rcases mem_ensureScheme (mem_urlNetlocPath_fst hcmem) with h1 | h1
          · exact Or.inr h1
          · exact Or.inl h1
        rintro (⟨hin, _⟩ | ⟨hin, _⟩)
        · rcases hnb '[' hin with h1 | h1
          · exact absurd h1 (by decide)
          · exact hbl h1
        · rcases hnb ']' hin with h1 | h1
          · exact absurd h1 (by decide)
          · exact hbr h1
      have hval := urlHostPath_valid hnobr
      by_cases hN : (urlNetlocPath (ensureScheme (pyStrip raw))).1 = []
      · by_cases hP : (urlNetlocPath (ensureScheme (pyStrip raw))).2 = []
        · have hhp : urlHostPath (ensureScheme (pyStrip raw))
              = .ok (urlNetlocPath (ensureScheme (pyStrip raw))) := by
            rw [hval, if_neg (by rintro ⟨_, hcon⟩; exact hcon hP)]
          rw [normalize_url_ok_case hcond hhp, if_pos hN]
          exact ⟨fun _ => Or.inr (Or.inr (Or.inr (Or.inr ⟨hN, hP⟩))), fun _ => rfl⟩
        · have hhp : urlHostPath (ensureScheme (pyStrip raw))
              = .ok ((urlNetlocPath (ensureScheme (pyStrip raw))).2,
                  ([] : List Char)) := by
            rw [hval, if_pos (And.intro hN hP)]
          rw [normalize_url_ok_case hcond hhp,
            if_neg (show ¬ (((urlNetlocPath (ensureScheme (pyStrip raw))).2,
              ([] : List Char)).1 = []) from hP)]
          constructor
          · intro hcon
            cases hcon
          · rintro (hc | hc | hc | hc | ⟨_, hc⟩)
            · exact absurd (Or.inl hc) hcond
            · exact absurd (Or.inr (Or.inl hc)) hcond
            · exact absurd (Or.inr (Or.inr (Or.inl hc))) hcond
            · exact absurd (Or.inr (Or.inr (Or.inr hc))) hcond
            · exact absurd hc hP
      · have hhp : urlHostPath (ensureScheme (pyStrip raw))
            = .ok (urlNetlocPath (ensureScheme (pyStrip raw))) := by
          rw [hval, if_neg (by rintro ⟨hcon, _⟩; exact hN hcon)]
        rw [normalize_url_ok_case hcond hhp, if_neg hN]
        constructor
        · intro hcon
          cases hcon
        · rintro (hc | hc | hc | hc | ⟨hc, _⟩)
          · exact absurd (Or.inl hc) hcond
          · exact absurd (Or.inr (Or.inl hc)) hcond
          · exact absurd (Or.inr (Or.inr (Or.inl hc))) hcond
          · exact absurd (Or.inr (Or.inr (Or.inr hc))) hcond
          · exact absurd hc hN
  · intro raw
    by_cases hcond : pyStrip raw = "" ∨ pyLower (pyStrip raw) = "nan"
        ∨ pyLower (pyStrip raw) = "none" ∨ pyLower (pyStrip raw) = "null"
    · rw [normalize_url_cond_case hcond]
      constructor
      · intro hcon
        cases hcon
      · rintro ⟨hnc, _⟩
        exact absurd hcond hnc
    · by_cases hinv : invalidIPv6Netloc
          (urlNetlocPath (ensureScheme (pyStrip raw))).1
      · rw [normalize_url_error_case hcond (urlHostPath_invalid hinv)]
        exact ⟨fun _ => ⟨hcond, hinv⟩, fun _ => rfl⟩
      · have hval := urlHostPath_valid hinv
        by_cases hsw : (urlNetlocPath (ensureScheme (pyStrip raw))).1 = []
            ∧ (urlNetlocPath (ensureScheme (pyStrip raw))).2 ≠ []
        · have hhp : urlHostPath (ensureScheme (pyStrip raw))
              = .ok ((urlNetlocPath (ensureScheme (pyStrip raw))).2,
                  ([] : List Char)) := by
            rw [hval, if_pos hsw]
          rw [normalize_url_ok_case hcond hhp]
          constructor
          · intro hcon
            by_cases hn : ((urlNetlocPath (ensureScheme (pyStrip raw))).2,
                ([] : List Char)).1 = []
            · rw [if_pos hn] at hcon
              cases hcon
            · rw [if_neg hn] at hcon
              cases hcon
          · rintro ⟨_, hcon⟩
            exact absurd hcon hinv
        · have hhp : urlHostPath (ensureScheme (pyStrip raw))
              = .ok (urlNetlocPath (ensureScheme (pyStrip raw))) := by
            rw [hval, if_neg hsw]
          rw [normalize_url_ok_case hcond hhp]
          constructor
          · intro hcon
            by_cases hn : (urlNetlocPath (ensureScheme (pyStrip raw))).1 = []
            · rw [if_pos hn] at hcon
              cases hcon
            · rw [if_neg hn] at hcon
              cases hcon
          · rintro ⟨_, hcon⟩
            exact absurd hcon hinv

theorem c9_normalize_url_witness :
    normalize_url "example.com" = .ok (some ("https://" ++
      (if ¬ pyStartsWith (pyLower "example.com") "www." = true ∧
          "example.com".data.count '.' = 1
       then "www." ++ "example.com" else "example.com") ++ "/")) :=
  c9_normalize_url.2.1 "example.com" (by decide) (by decide) (by decide) (by decide)
    (by decide)

/-- C9 counterexample: on the website string consisting of a single `[` —
an input from which no host can be derived — the fetch is neither skipped
nor attempted-and-failed: `urlparse` raises
`ValueError("Invalid IPv6 URL")` inside `normalize_url`, which propagates
and aborts the whole enrichment pass. -/
theorem c9_bracket_counterexample :
    normalize_url "[" = .error .invalidIPv6 ∧ normalize_url "[" ≠ .ok none := by
  constructor
  · rfl
  · intro hcon
    have h1 : normalize_url "[" = Except.error UrlErr.invalidIPv6 := rfl
    rw [h1] at hcon
    cases hcon

end Enrich
